import Mathlib

/-!
Verification of the file-change tracking and diff/revert engine of the
Atlas desktop shell (`src/main/diffManager.js`).

The JavaScript module is embedded shallowly:

* text strings are Lean `String`s; `String.split('\n')` is embedded as
  `splitLines` (a structural recursion over the character list, so that
  the kernel can evaluate it);
* `computeLCS` is embedded as a dynamic-programming value function `dpT`
  (the same recurrence the code fills its `dp` table with) together with
  the backtracking pass `backtrack`;
* `generateDiff`'s hunk-building loop is embedded as `buildHunks`;
* the module-level mutable maps (`fileSnapshots`, `pendingChanges`) become
  an explicit state record `DMState`, JavaScript `Map`s becoming
  insertion-ordered association lists; filesystem reads and writes are
  modelled by event inputs carrying the observed data and success flags.
-/

/-- The two kinds of diff line the code emits (`'remove'` / `'add'`). -/
inductive LineType where
  | remove : LineType
  | add : LineType
deriving DecidableEq

/-- `{ type, content, lineNum }` as pushed by `generateDiff`. -/
structure DiffLine where
  type : LineType
  content : String
  lineNum : Nat
deriving DecidableEq

/-- `{ startOld, startNew, lines }` as built by `generateDiff`. -/
structure Hunk where
  startOld : Nat
  startNew : Nat
  lines : List DiffLine
deriving DecidableEq

/-- Split a character list at every newline, the semantics of JavaScript
`String.prototype.split('\n')`: the empty text yields one empty line. -/
def splitNl : List Char → List (List Char)
  | [] => [[]]
  | c :: cs =>
    if c = '\n' then [] :: splitNl cs
    else
      match splitNl cs with
      | [] => [[c]]
      | l :: ls => (c :: l) :: ls

/-- Join lines with newlines, the inverse of `splitNl`. -/
def joinNl : List (List Char) → List Char
  | [] => []
  | [l] => l
  | l :: ls => l ++ '\n' :: joinNl ls

/-- `content.split('\n')` on a Lean `String`. -/
def splitLines (s : String) : List String :=
  (splitNl s.data).map String.mk

/-- Join a line list back into a single string with newline separators. -/
def joinLines (ls : List String) : String :=
  String.mk (joinNl (ls.map String.data))

/-- Inner loop of the LCS table recurrence: given row `i` of the table as a
function (`prev` is row `i`, i.e. values `dp[i][·]`), compute row `i+1`.
This matches the `dp` table `computeLCS` fills:
`dp[i+1][j+1] = dp[i][j] + 1` when `oldLines[i] = newLines[j]`, else
`max (dp[i][j+1]) (dp[i+1][j])`. -/
def dpRow (o n : List String) (prev : Nat → Nat) (i : Nat) : Nat → Nat
  | 0 => 0
  | j + 1 =>
    if o.getD i "" = n.getD j "" then prev j + 1
    else max (prev (j + 1)) (dpRow o n prev i j)

/-- `dpT o n i j` is the value `dp[i][j]` of the table built by
`computeLCS`: the DP approximation of the LCS length of the first `i` old
lines and the first `j` new lines. -/
def dpT (o n : List String) : Nat → Nat → Nat
  | 0 => fun _ => 0
  | i + 1 => dpRow o n (dpT o n i) i

/-- Inner loop of `computeLCS`'s backtracking pass over column index `j`,
with the whole previous row available as `prevRow j = backtrack o n i j`. -/
def btRow (o n : List String) (prevRow : Nat → List (Nat × Nat)) (i : Nat) :
    Nat → List (Nat × Nat)
  | 0 => []
  | j + 1 =>
    if o.getD i "" = n.getD j "" then prevRow j ++ [(i, j)]
    else if dpT o n i (j + 1) > dpT o n (i + 1) j then prevRow (j + 1)
    else btRow o n prevRow i j

/-- The backtracking loop of `computeLCS`, starting from table position
`(i, j)` and walking toward `(0, 0)`; matches are accumulated in
increasing order (the code `unshift`s while walking down). -/
def backtrack (o n : List String) : Nat → Nat → List (Nat × Nat)
  | 0 => fun _ => []
  | i + 1 => btRow o n (backtrack o n i) i

/-- `computeLCS(oldLines, newLines)`: the list of matched index pairs
`{oldIdx, newIdx}` in increasing order. -/
def computeLCS (o n : List String) : List (Nat × Nat) :=
  backtrack o n o.length n.length

/-- The `add` lines pushed for the remaining new-side lines once the
old side is exhausted in `generateDiff`'s trailing `while` loop. -/
def addTail (n : List String) : List String → Nat → List DiffLine
  | [], _ => []
  | y :: ys, ni => ⟨LineType.add, y, ni + 1⟩ :: addTail n ys (ni + 1)

/-- The interleaved `remove`/`add` lines pushed by `generateDiff`'s
trailing `while (oldIdx < oldLines.length || newIdx < newLines.length)`
loop, starting with the suffixes of the two line lists. -/
def tailLines (o n : List String) :
    List String → List String → Nat → Nat → List DiffLine
  | [], ys, _, ni => addTail n ys ni
  | x :: xs, [], oi, ni =>
    ⟨LineType.remove, x, oi + 1⟩ :: tailLines o n xs [] (oi + 1) ni
  | x :: xs, y :: ys, oi, ni =>
    ⟨LineType.remove, x, oi + 1⟩ :: ⟨LineType.add, y, ni + 1⟩ ::
      tailLines o n xs ys (oi + 1) (ni + 1)

/-- The `remove` lines pushed for the gap `[oi, mo)` before a match. -/
def mkRemoves (o : List String) (oi mo : Nat) : List DiffLine :=
  (List.range (mo - oi)).map fun k =>
    ⟨LineType.remove, o.getD (oi + k) "", oi + k + 1⟩

/-- The `add` lines pushed for the gap `[ni, mn)` before a match. -/
def mkAdds (n : List String) (ni mn : Nat) : List DiffLine :=
  (List.range (mn - ni)).map fun k =>
    ⟨LineType.add, n.getD (ni + k) "", ni + k + 1⟩

/-- The hunk-building loop of `generateDiff`: walk the match list, turning
each gap before a match into one hunk of `remove`s then `add`s, and the
lines left after the last match into one final interleaved hunk.  After a
match the cursors continue from one past the match position (in the code
the gap `while` loops have advanced `oldIdx`/`newIdx` to
`max oi mo`/`max ni mn` before the trailing `oldIdx++; newIdx++`). -/
def buildHunks (o n : List String) : List (Nat × Nat) → Nat → Nat → List Hunk
  | [], oi, ni =>
    if oi < o.length ∨ ni < n.length then
      [⟨oi + 1, ni + 1, tailLines o n (o.drop oi) (n.drop ni) oi ni⟩]
    else []
  | (mo, mn) :: rest, oi, ni =>
    (if oi < mo ∨ ni < mn then
      [⟨oi + 1, ni + 1, mkRemoves o oi mo ++ mkAdds n ni mn⟩]
    else []) ++ buildHunks o n rest (max oi mo + 1) (max ni mn + 1)

/-- `generateDiff` on line lists: `computeLCS` then the hunk builder. -/
def diffLines (o n : List String) : List Hunk :=
  buildHunks o n (computeLCS o n) 0 0

/-- `generateDiff(oldContent, newContent)` from the source: split both
texts on `'\n'` and run the LCS-based hunk construction. -/
def generateDiff (oldContent newContent : String) : List Hunk :=
  diffLines (splitLines oldContent) (splitLines newContent)

/-! ## Applying a diff: the reconstruction semantics of a hunk list -/

/-- The old-side (`remove`-typed) contents of a hunk. -/
def hunkRemoves (h : Hunk) : List String :=
  (h.lines.filter fun l => decide (l.type = LineType.remove)).map DiffLine.content

/-- The new-side (`add`-typed) contents of a hunk. -/
def hunkAdds (h : Hunk) : List String :=
  (h.lines.filter fun l => decide (l.type = LineType.add)).map DiffLine.content

/-- Apply hunks to the old line list, walking from 0-based position `pos`:
copy the unchanged lines up to each hunk's recorded `startOld`, emit the
hunk's `add` contents in place of its `remove` lines, and continue after
the removed range. -/
def applyHunksAux (o : List String) : List Hunk → Nat → List String
  | [], pos => o.drop pos
  | h :: rest, pos =>
    (o.drop pos).take (h.startOld - 1 - pos) ++ hunkAdds h ++
      applyHunksAux o rest (h.startOld - 1 + (hunkRemoves h).length)

/-- Apply a hunk list to an old line list: replace, in order, each hunk's
`remove`-typed old-side lines with its `add`-typed new-side lines at the
recorded positions. -/
def applyDiff (o : List String) (hs : List Hunk) : List String :=
  applyHunksAux o hs 0

/-! ## Splitting and joining lines -/

theorem splitNl_ne_nil (cs : List Char) : splitNl cs ≠ [] := by
  induction cs with
  | nil => simp [splitNl]
  | cons c cs ih =>
    simp only [splitNl]
    split
    · simp
    · cases h : splitNl cs with
      | nil => simp
      | cons l ls => simp [h]

theorem joinNl_splitNl (cs : List Char) : joinNl (splitNl cs) = cs := by
  induction cs with
  | nil => simp [splitNl, joinNl]
  | cons c cs ih =>
    simp only [splitNl]
    split
    · rename_i hc
      subst hc
      cases h : splitNl cs with
      | nil => exact absurd h (splitNl_ne_nil cs)
      | cons l ls =>
        rw [h] at ih
        simp [joinNl, ih]
    · cases h : splitNl cs with
      | nil => exact absurd h (splitNl_ne_nil cs)
      | cons l ls =>
        rw [h] at ih
        cases ls with
        | nil => simp [joinNl] at ih ⊢; exact ih
        | cons l2 ls2 => simp [joinNl] at ih ⊢; rw [ih]

theorem joinLines_splitLines (s : String) : joinLines (splitLines s) = s := by
  cases s with
  | mk data =>
    simp only [joinLines, splitLines, List.map_map]
    have : (String.data ∘ String.mk) = id := rfl
    rw [this, List.map_id, joinNl_splitNl]

theorem splitLines_injective {s t : String}
    (h : splitLines s = splitLines t) : s = t := by
  have hs := joinLines_splitLines s
  have ht := joinLines_splitLines t
  rw [← hs, ← ht, h]

/-! ## Equation lemmas for the structurally-embedded DP table and backtrack -/

theorem dpT_zero_left (o n : List String) (j : Nat) : dpT o n 0 j = 0 := rfl

theorem dpT_zero_right (o n : List String) (i : Nat) : dpT o n i 0 = 0 := by
  cases i <;> rfl

theorem dpT_succ_succ (o n : List String) (i j : Nat) :
    dpT o n (i + 1) (j + 1) =
      if o.getD i "" = n.getD j "" then dpT o n i j + 1
      else max (dpT o n i (j + 1)) (dpT o n (i + 1) j) := rfl

theorem backtrack_zero_left (o n : List String) (j : Nat) :
    backtrack o n 0 j = [] := rfl

theorem backtrack_zero_right (o n : List String) (i : Nat) :
    backtrack o n i 0 = [] := by
  cases i <;> rfl

theorem backtrack_succ_succ (o n : List String) (i j : Nat) :
    backtrack o n (i + 1) (j + 1) =
      if o.getD i "" = n.getD j "" then backtrack o n i j ++ [(i, j)]
      else if dpT o n i (j + 1) > dpT o n (i + 1) j then backtrack o n i (j + 1)
      else backtrack o n (i + 1) j := rfl

/-! ## Structure of the match lists fed into the hunk builder -/

/-- The shape invariant of the match list the hunk builder consumes when
the cursors stand at `(oi, ni)`: matched pairs are in strictly increasing
order in both components, in range, and pair up equal lines. -/
inductive ValidMatches (o n : List String) : Nat → Nat → List (Nat × Nat) → Prop
  | nil (oi ni : Nat) : ValidMatches o n oi ni []
  | cons (oi ni mo mn : Nat) (rest : List (Nat × Nat))
      (hoi : oi ≤ mo) (hni : ni ≤ mn)
      (hmo : mo < o.length) (hmn : mn < n.length)
      (heq : o.getD mo "" = n.getD mn "")
      (hrest : ValidMatches o n (mo + 1) (mn + 1) rest) :
      ValidMatches o n oi ni ((mo, mn) :: rest)

theorem ValidMatches.snoc {o n : List String} {oi ni i j : Nat}
    {ms : List (Nat × Nat)} (h : ValidMatches o n oi ni ms)
    (hb : ∀ p ∈ ms, p.1 < i ∧ p.2 < j)
    (hoi : oi ≤ i) (hni : ni ≤ j)
    (hi : i < o.length) (hj : j < n.length)
    (heq : o.getD i "" = n.getD j "") :
    ValidMatches o n oi ni (ms ++ [(i, j)]) := by
  induction h with
  | nil a b =>
    exact ValidMatches.cons a b i j [] hoi hni hi hj heq (ValidMatches.nil _ _)
  | cons a b mo mn rest h1 h2 h3 h4 h5 h6 ih =>
    have hbm := hb (mo, mn) (List.mem_cons_self _ _)
    refine ValidMatches.cons a b mo mn (rest ++ [(i, j)]) h1 h2 h3 h4 h5 ?_
    exact ih (fun p hp => hb p (List.mem_cons_of_mem _ hp))
      (by omega) (by omega)

theorem backtrack_valid (o n : List String) :
    ∀ i, i ≤ o.length → ∀ j, j ≤ n.length →
      ValidMatches o n 0 0 (backtrack o n i j) ∧
      ∀ p ∈ backtrack o n i j, p.1 < i ∧ p.2 < j := by
  intro i
  induction i with
  | zero =>
    intro _ j _
    rw [backtrack_zero_left]
    exact ⟨ValidMatches.nil _ _, by simp⟩
  | succ i ih =>
    intro hi j
    induction j with
    | zero =>
      intro _
      rw [backtrack_zero_right]
      exact ⟨ValidMatches.nil _ _, by simp⟩
    | succ j ihj =>
      intro hj
      rw [backtrack_succ_succ]
      split
      · rename_i heq
        obtain ⟨hv, hb⟩ := ih (by omega) j (by omega)
        refine ⟨hv.snoc hb (Nat.zero_le _) (Nat.zero_le _) (by omega) (by omega) heq, ?_⟩
        intro p hp
        rcases List.mem_append.mp hp with hp | hp
        · have := hb p hp; omega
        · have hpe : p = (i, j) := by simpa using hp
          subst hpe
          exact ⟨Nat.lt_succ_self i, Nat.lt_succ_self j⟩
      · split
        · obtain ⟨hv, hb⟩ := ih (by omega) (j + 1) hj
          refine ⟨hv, fun p hp => ?_⟩
          have := hb p hp; omega
        · obtain ⟨hv, hb⟩ := ihj (by omega)
          refine ⟨hv, fun p hp => ?_⟩
          have := hb p hp; omega

theorem computeLCS_valid (o n : List String) :
    ValidMatches o n 0 0 (computeLCS o n) :=
  (backtrack_valid o n o.length le_rfl n.length le_rfl).1

/-! ## Content of the hunks built by `buildHunks` -/

theorem drop_getD_cons : ∀ (l : List String) (i : Nat), i < l.length →
    l.drop i = l.getD i "" :: l.drop (i + 1) := by
  intro l
  induction l with
  | nil => intro i h; simp at h
  | cons a l ih =>
    intro i h
    cases i with
    | zero => simp
    | succ i =>
      simp only [List.drop_succ_cons, List.getD_cons_succ]
      exact ih i (by simpa using h)

theorem hunkAdds_gap (o n : List String) (oi mo ni mn : Nat) :
    hunkAdds ⟨oi + 1, ni + 1, mkRemoves o oi mo ++ mkAdds n ni mn⟩ =
      (List.range (mn - ni)).map fun k => n.getD (ni + k) "" := by
  simp [hunkAdds, mkRemoves, mkAdds, List.filter_append, List.filter_map,
    Function.comp_def, List.filter_true, List.filter_false]

theorem hunkRemoves_gap (o n : List String) (oi mo ni mn : Nat) :
    hunkRemoves ⟨oi + 1, ni + 1, mkRemoves o oi mo ++ mkAdds n ni mn⟩ =
      (List.range (mo - oi)).map fun k => o.getD (oi + k) "" := by
  simp [hunkRemoves, mkRemoves, mkAdds, List.filter_append, List.filter_map,
    Function.comp_def, List.filter_true, List.filter_false]

theorem hunkRemoves_gap_length (o n : List String) (oi mo ni mn : Nat) :
    (hunkRemoves ⟨oi + 1, ni + 1, mkRemoves o oi mo ++ mkAdds n ni mn⟩).length =
      mo - oi := by
  rw [hunkRemoves_gap]; simp

theorem addTail_filter_add (n : List String) : ∀ (ys : List String) (ni : Nat),
    ((addTail n ys ni).filter fun l => decide (l.type = LineType.add)).map
      DiffLine.content = ys := by
  intro ys
  induction ys with
  | nil => intro ni; simp [addTail]
  | cons y ys ih => intro ni; simp [addTail, ih]

theorem addTail_filter_remove (n : List String) : ∀ (ys : List String) (ni : Nat),
    ((addTail n ys ni).filter fun l => decide (l.type = LineType.remove)).map
      DiffLine.content = [] := by
  intro ys
  induction ys with
  | nil => intro ni; simp [addTail]
  | cons y ys ih => intro ni; simp [addTail, ih]

theorem tailLines_filter_add (o n : List String) :
    ∀ (xs ys : List String) (oi ni : Nat),
    ((tailLines o n xs ys oi ni).filter fun l => decide (l.type = LineType.add)).map
      DiffLine.content = ys := by
  intro xs
  induction xs with
  | nil => intro ys oi ni; simp [tailLines, addTail_filter_add]
  | cons x xs ih =>
    intro ys oi ni
    cases ys with
    | nil => simp [tailLines, ih]
    | cons y ys => simp [tailLines, ih]

theorem tailLines_filter_remove (o n : List String) :
    ∀ (xs ys : List String) (oi ni : Nat),
    ((tailLines o n xs ys oi ni).filter fun l => decide (l.type = LineType.remove)).map
      DiffLine.content = xs := by
  intro xs
  induction xs with
  | nil => intro ys oi ni; simp [tailLines, addTail_filter_remove]
  | cons x xs ih =>
    intro ys oi ni
    cases ys with
    | nil => simp [tailLines, ih]
    | cons y ys => simp [tailLines, ih]

theorem range_getD_append_drop (n : List String) :
    ∀ (k ni : Nat), ni + k ≤ n.length →
      (((List.range k).map fun i => n.getD (ni + i) "") ++ n.drop (ni + k)) =
        n.drop ni := by
  intro k
  induction k with
  | zero => intro ni _; simp
  | succ k ih =>
    intro ni h
    rw [List.range_succ_eq_map]
    simp only [List.map_cons, List.map_map, Nat.add_zero]
    have h1 : (List.range k).map ((fun i => n.getD (ni + i) "") ∘ Nat.succ) =
        (List.range k).map fun i => n.getD (ni + 1 + i) "" := by
      apply List.map_congr_left
      intro i _
      simp only [Function.comp_apply]
      congr 1
      omega
    have h2 : ni + (k + 1) = ni + 1 + k := by omega
    rw [h1, List.cons_append, h2, ih (ni + 1) (by omega),
      ← drop_getD_cons n ni (by omega)]

theorem buildHunks_startOld_ge (o n : List String) :
    ∀ (ms : List (Nat × Nat)) (oi ni : Nat),
      ∀ h ∈ buildHunks o n ms oi ni, oi + 1 ≤ h.startOld := by
  intro ms
  induction ms with
  | nil =>
    intro oi ni h hm
    simp only [buildHunks] at hm
    split at hm
    · have : h = ⟨oi + 1, ni + 1, tailLines o n (o.drop oi) (n.drop ni) oi ni⟩ := by
        simpa using hm
      subst this; simp
    · simp at hm
  | cons m rest ih =>
    obtain ⟨mo, mn⟩ := m
    intro oi ni h hm
    simp only [buildHunks] at hm
    rcases List.mem_append.mp hm with hm | hm
    · split at hm
      · have : h = ⟨oi + 1, ni + 1, mkRemoves o oi mo ++ mkAdds n ni mn⟩ := by
          simpa using hm
        subst this; simp
      · simp at hm
    · have h1 := ih (max oi mo + 1) (max ni mn + 1) h hm
      have h2 : oi ≤ max oi mo := Nat.le_max_left _ _
      omega

theorem applyHunksAux_pos_shift (o : List String) :
    ∀ (hs : List Hunk) (pos : Nat), pos < o.length →
      (∀ h ∈ hs, pos + 2 ≤ h.startOld) →
      applyHunksAux o hs pos = o.getD pos "" :: applyHunksAux o hs (pos + 1) := by
  intro hs pos hpos hge
  cases hs with
  | nil =>
    simp only [applyHunksAux]
    exact drop_getD_cons o pos hpos
  | cons h rest =>
    have hh := hge h (List.mem_cons_self _ _)
    simp only [applyHunksAux]
    have hk : h.startOld - 1 - pos = (h.startOld - 1 - (pos + 1)) + 1 := by omega
    rw [hk, drop_getD_cons o pos hpos, List.take_succ_cons, List.cons_append,
      List.cons_append]


theorem applyHunksAux_buildHunks (o n : List String) :
    ∀ (ms : List (Nat × Nat)) (oi ni : Nat), ValidMatches o n oi ni ms →
      applyHunksAux o (buildHunks o n ms oi ni) oi = n.drop ni := by
  intro ms oi ni h
  induction h with
  | nil a b =>
    simp only [buildHunks]
    split
    · simp only [applyHunksAux]
      have hadds : hunkAdds ⟨a + 1, b + 1, tailLines o n (o.drop a) (n.drop b) a b⟩ =
          n.drop b := tailLines_filter_add o n (o.drop a) (n.drop b) a b
      have hrems : hunkRemoves ⟨a + 1, b + 1, tailLines o n (o.drop a) (n.drop b) a b⟩ =
          o.drop a := tailLines_filter_remove o n (o.drop a) (n.drop b) a b
      rw [hadds, hrems]
      have h0 : a + 1 - 1 - a = 0 := by omega
      have h1 : a + 1 - 1 + (o.drop a).length = a + (o.length - a) := by
        rw [List.length_drop]; omega
      rw [h0, h1]
      have h2 : o.drop (a + (o.length - a)) = [] :=
        List.drop_eq_nil_of_le (by omega)
      simp [h2]
    · rename_i hcond
      push_neg at hcond
      simp only [applyHunksAux]
      rw [List.drop_eq_nil_of_le hcond.1, List.drop_eq_nil_of_le hcond.2]
  | cons a b mo mn rest hoi hni hmo hmn heq hrest ih =>
    have hmaxo : max a mo = mo := Nat.max_eq_right hoi
    have hmaxn : max b mn = mn := Nat.max_eq_right hni
    simp only [buildHunks, hmaxo, hmaxn]
    have hshift : applyHunksAux o (buildHunks o n rest (mo + 1) (mn + 1)) mo =
        n.drop mn := by
      rw [applyHunksAux_pos_shift o _ mo hmo
        (fun h hm => buildHunks_startOld_ge o n rest (mo + 1) (mn + 1) h hm), ih,
        heq, ← drop_getD_cons n mn hmn]
    split
    · rw [List.singleton_append]
      simp only [applyHunksAux, hunkAdds_gap, hunkRemoves_gap_length]
      have h0 : a + 1 - 1 - a = 0 := by omega
      have h1 : a + 1 - 1 + (mo - a) = mo := by omega
      rw [h0, h1, hshift]
      have h2 := range_getD_append_drop n (mn - b) b (by omega)
      rw [show b + (mn - b) = mn from by omega] at h2
      rw [List.take_zero, List.nil_append, h2]
    · rename_i hcond
      push_neg at hcond
      have ha : a = mo := by omega
      have hb : b = mn := by omega
      subst ha; subst hb
      simpa using hshift

theorem applyDiff_diffLines (o n : List String) :
    applyDiff o (diffLines o n) = n := by
  have h := applyHunksAux_buildHunks o n (computeLCS o n) 0 0 (computeLCS_valid o n)
  simpa [applyDiff, diffLines] using h

theorem backtrack_self (o : List String) :
    ∀ k : Nat, backtrack o o k k = (List.range k).map fun i => (i, i) := by
  intro k
  induction k with
  | zero => rfl
  | succ k ih =>
    rw [backtrack_succ_succ, if_pos rfl, ih, List.range_succ, List.map_append]
    simp

theorem buildHunks_consec (o n : List String) :
    ∀ (t oi ni : Nat), oi + t = o.length → ni + t = n.length →
      buildHunks o n ((List.range t).map fun k => (oi + k, ni + k)) oi ni = [] := by
  intro t
  induction t with
  | zero =>
    intro oi ni ho hn
    simp only [List.range_zero, List.map_nil, buildHunks]
    rw [if_neg]
    omega
  | succ t ih =>
    intro oi ni ho hn
    rw [List.range_succ_eq_map]
    simp only [List.map_cons, List.map_map]
    have h1 : (List.range t).map ((fun k => (oi + k, ni + k)) ∘ Nat.succ) =
        (List.range t).map fun k => (oi + 1 + k, ni + 1 + k) := by
      apply List.map_congr_left
      intro i _
      simp only [Function.comp_apply, Prod.mk.injEq]
      omega
    rw [h1]
    simp only [buildHunks, Nat.add_zero, Nat.max_self]
    rw [if_neg (by omega), List.nil_append]
    exact ih (oi + 1) (ni + 1) (by omega) (by omega)

/-- For any text pair `(a, b)`, applying the hunks of `generateDiff a b`
to `a` — replacing, in order, each hunk's `remove`-typed old-side lines
with its `add`-typed new-side lines at the recorded positions —
reconstructs exactly the line sequence of `b`, and joining the result
reconstructs exactly the string `b` (claim C1). -/
theorem c1_diff_reconstructs (a b : String) :
    applyDiff (splitLines a) (generateDiff a b) = splitLines b ∧
    joinLines (applyDiff (splitLines a) (generateDiff a b)) = b := by
  have h : applyDiff (splitLines a) (generateDiff a b) = splitLines b :=
    applyDiff_diffLines (splitLines a) (splitLines b)
  exact ⟨h, by rw [h, joinLines_splitLines]⟩

/-- For every text `a`, `generateDiff a a` is the empty hunk list
(claim C8). -/
theorem c8_diff_self_empty (a : String) : generateDiff a a = [] := by
  unfold generateDiff diffLines computeLCS
  rw [backtrack_self]
  have h := buildHunks_consec (splitLines a) (splitLines a) (splitLines a).length 0 0
    (by omega) (by omega)
  simpa using h

/-! ## The change-tracker state machine

The module-level `fileSnapshots` and `pendingChanges` maps, together with
the on-disk contents the tracker itself writes, form an explicit state.
JavaScript `Map`s become insertion-ordered association lists; filesystem
reads are modelled by event inputs carrying the observed data, and
`fs.writeFileSync` by a success flag carried by the command. -/

/-- Does the character list start with the given pattern? -/
def leadsWith : List Char → List Char → Bool
  | [], _ => true
  | _ :: _, [] => false
  | p :: ps, c :: cs => p == c && leadsWith ps cs

/-- Does the character list contain the pattern as a contiguous substring?
This is the semantics of an unanchored JavaScript regex of plain
characters, e.g. `/\.git/`. -/
def hasSub : List Char → List Char → Bool
  | [], pat => pat.isEmpty
  | c :: cs, pat => leadsWith pat (c :: cs) || hasSub cs pat

/-- Does the character list end with the suffix?  The semantics of a
`$`-anchored JavaScript regex of plain characters, e.g. `/\.swp$/`. -/
def endsW (s suf : List Char) : Bool :=
  leadsWith suf.reverse s.reverse

/-- `shouldIgnoreFile(filename)`: each regex in the code's
`ignorePatterns` list is a plain substring test, a `$`-anchored suffix
test, or a substring test containing an escaped dot or slash. -/
def shouldIgnoreFile (filename : String) : Bool :=
  hasSub filename.data "node_modules".data ||
  hasSub filename.data ".git".data ||
  hasSub filename.data ".DS_Store".data ||
  endsW filename.data ".swp".data ||
  endsW filename.data "~".data ||
  endsW filename.data ".lock".data ||
  endsW filename.data "package-lock.json".data ||
  endsW filename.data "yarn.lock".data ||
  endsW filename.data ".log".data ||
  hasSub filename.data "dist/".data ||
  hasSub filename.data "build/".data ||
  hasSub filename.data ".atlas/".data

/-- Lookup in a JavaScript-`Map`-like association list. -/
def mapGet (m : List (String × α)) (k : String) : Option α :=
  (m.find? fun p => decide (p.1 = k)).map Prod.snd

/-- `Map.set`: replace the value in place if the key exists, otherwise
append (JavaScript `Map`s preserve insertion order). -/
def mapSet (m : List (String × α)) (k : String) (v : α) : List (String × α) :=
  match m with
  | [] => [(k, v)]
  | p :: rest => if p.1 = k then (k, v) :: rest else p :: mapSet rest k v

/-- `Map.delete`. -/
def mapDelete (m : List (String × α)) (k : String) : List (String × α) :=
  m.filter fun p => decide (p.1 ≠ k)

/-- `path.basename`: the last `/`-separated component. -/
def takeUntilSlash : List Char → List Char
  | [] => []
  | c :: cs => if c = '/' then [] else c :: takeUntilSlash cs

/-- `path.basename` on simple relative paths. -/
def basename (p : String) : String :=
  String.mk (takeUntilSlash p.data.reverse).reverse

/-- `path.join(dir, name)` on simple relative names. -/
def pathJoin (d f : String) : String := d ++ "/" ++ f

/-- The `{ path, filename, oldContent, newContent, diff, timestamp }`
record stored in `pendingChanges`. -/
structure PendingChange where
  path : String
  filename : String
  oldContent : String
  newContent : String
  diff : List Hunk
  timestamp : Nat
deriving DecidableEq

/-- The tracker's mutable state: the two module-level maps plus the
on-disk contents written by the revert operations. -/
structure DMState where
  fileSnapshots : List (String × String)
  pendingChanges : List (String × PendingChange)
  disk : List (String × String)
deriving DecidableEq

/-- The empty initial state of the module. -/
def initState : DMState := ⟨[], [], []⟩

/-- One filesystem event as observed inside the `fs.watch` callback and
`handleFileChange`: the data every `fs` call of the handler would return,
plus success flags for the calls that can throw. -/
structure FileEvent where
  filename : String
  projectPath : String
  isChangeEvent : Bool
  fileStillThere : Bool
  statOk : Bool
  isFile : Bool
  size : Nat
  readOk : Bool
  content : String
  time : Nat
deriving DecidableEq

/-- `handleFileChange(filePath)`: guard on stat success, regular file,
the 1 MB size limit and read success; then record a pending change when a
snapshot exists and differs, and unconditionally update the snapshot. -/
def handleFileChange (st : DMState) (filePath : String) (e : FileEvent) : DMState :=
  if !e.statOk then st
  else if !e.isFile then st
  else if e.size > 1024 * 1024 then st
  else if !e.readOk then st
  else
    let st1 :=
      match mapGet st.fileSnapshots filePath with
      | none => st
      | some oldContent =>
        if oldContent ≠ e.content then
          let pc : PendingChange :=
            ⟨filePath, basename filePath, oldContent, e.content,
              generateDiff oldContent e.content, e.time⟩
          { st with pendingChanges := mapSet st.pendingChanges filePath pc }
        else st
    { st1 with fileSnapshots := mapSet st1.fileSnapshots filePath e.content }

/-- The `fs.watch` callback of `watchProject`: drop ignored filenames,
then call `handleFileChange` for change events on still-existing paths. -/
def watchCallback (st : DMState) (e : FileEvent) : DMState :=
  if shouldIgnoreFile e.filename then st
  else if e.isChangeEvent && e.fileStillThere then
    handleFileChange st (pathJoin e.projectPath e.filename) e
  else st

/-- `snapshotFile(filePath)`: store the read content, returning
`success: false` when the file is missing or unreadable. -/
def snapshotFile (st : DMState) (filePath : String)
    (fileThere readOk : Bool) (content : String) : Bool × DMState :=
  if fileThere && readOk then
    (true, { st with fileSnapshots := mapSet st.fileSnapshots filePath content })
  else (false, st)

/-- One entry of a directory listing, as `fs.readdirSync` with
`withFileTypes` reports it. -/
inductive FSEntry where
  | file (name content : String) : FSEntry
  | dir (name : String) (entries : List FSEntry) : FSEntry

/-- The `for (const entry of entries)` loop body of `snapshotDirectory`:
skip ignored names, snapshot files, recurse (through `recur`) into
subdirectories. -/
def snapList (recur : DMState → String → List FSEntry → DMState)
    (dirPath : String) : DMState → List FSEntry → DMState
  | st, [] => st
  | st, e :: rest =>
    let st2 :=
      match e with
      | FSEntry.file name content =>
        if shouldIgnoreFile name then st
        else (snapshotFile st (pathJoin dirPath name) true true content).2
      | FSEntry.dir name sub =>
        if shouldIgnoreFile name then st
        else recur st (pathJoin dirPath name) sub
    snapList recur dirPath st2 rest

/-- `snapshotDirectory` with its `depth > 5` recursion guard expressed as
remaining fuel: the call at depth `d` runs with fuel `6 - d`, so the top
call has fuel 6 and a call that the code would cut off (`depth > 5`) has
fuel 0. -/
def snapDirFuel : Nat → DMState → String → List FSEntry → DMState
  | 0 => fun st _ _ => st
  | fuel + 1 => fun st dirPath entries => snapList (snapDirFuel fuel) dirPath st entries

/-- `snapshotDirectory(dirPath)` as invoked by the IPC handler
(`depth = 0`). -/
def snapshotDirectory (st : DMState) (dirPath : String)
    (entries : List FSEntry) : DMState :=
  snapDirFuel 6 st dirPath entries

/-- Remove the first occurrence of `pat` from the character list, the
semantics of JavaScript `String.prototype.replace(pat, '')` with a string
pattern; if `pat` does not occur the list is unchanged. -/
def replaceFirstL : List Char → List Char → List Char
  | [], _ => []
  | c :: cs, pat =>
    if leadsWith pat (c :: cs) then (c :: cs).drop pat.length
    else c :: replaceFirstL cs pat

/-- `content.replace(pat, '')` on strings. -/
def replaceFirst (s pat : String) : String :=
  String.mk (replaceFirstL s.data pat.data)

/-- Result values the tracker commands report back over IPC:
`{ success: true }`, `{ success: false, error: 'No pending changes for
file' }`, `{ success: false, error: 'Hunk not found' }`, and
`{ success: false, error: err.message }` from a failed write. -/
inductive OpResult where
  | ok : OpResult
  | errNoPending : OpResult
  | errHunkNotFound : OpResult
  | errIo (msg : String) : OpResult
deriving DecidableEq

/-- `acceptChanges(filePath)`: promote `newContent` to the snapshot and
drop the pending entry; `NotFound`-style error when none exists. -/
def acceptChanges (st : DMState) (filePath : String) : OpResult × DMState :=
  match mapGet st.pendingChanges filePath with
  | some change =>
    (OpResult.ok,
      { st with fileSnapshots := mapSet st.fileSnapshots filePath change.newContent,
                pendingChanges := mapDelete st.pendingChanges filePath })
  | none => (OpResult.errNoPending, st)

/-- `revertChanges(filePath)`: write `oldContent` back to disk, reset the
snapshot, delete the pending entry.  `writeErr` models the outcome of
`fs.writeFileSync` (`none` is success, `some msg` a thrown error with
that message); a thrown write leaves every part of the state unchanged
because the `Map` updates only run after the write. -/
def revertChanges (st : DMState) (filePath : String)
    (writeErr : Option String) : OpResult × DMState :=
  match mapGet st.pendingChanges filePath with
  | some change =>
    match writeErr with
    | none =>
      (OpResult.ok,
        { st with disk := mapSet st.disk filePath change.oldContent,
                  fileSnapshots := mapSet st.fileSnapshots filePath change.oldContent,
                  pendingChanges := mapDelete st.pendingChanges filePath })
    | some msg => (OpResult.errIo msg, st)
  | none => (OpResult.errNoPending, st)

/-- `revertHunk(filePath, hunkIndex)`: delete every `add`-typed line of
the hunk from `newContent` by literal first-occurrence string
replacement of `line + '\n'`, write the result, recompute the diff
against `oldContent`, and delete or update the pending entry according
to whether the recomputed diff is empty. -/
def revertHunk (st : DMState) (filePath : String) (hunkIndex : Nat)
    (writeErr : Option String) : OpResult × DMState :=
  match mapGet st.pendingChanges filePath with
  | none => (OpResult.errHunkNotFound, st)
  | some change =>
    if h : hunkIndex < change.diff.length then
      let hunk := change.diff.get ⟨hunkIndex, h⟩
      let removedLines := (hunk.lines.filter fun l =>
        decide (l.type = LineType.add)).map DiffLine.content
      let newContent := removedLines.foldl
        (fun acc line => replaceFirst acc (line ++ "\n")) change.newContent
      match writeErr with
      | some msg => (OpResult.errIo msg, st)
      | none =>
        let newDiff := generateDiff change.oldContent newContent
        if newDiff = [] then
          (OpResult.ok,
            { st with disk := mapSet st.disk filePath newContent,
                      pendingChanges := mapDelete st.pendingChanges filePath })
        else
          (OpResult.ok,
            { st with disk := mapSet st.disk filePath newContent,
                      pendingChanges := mapSet st.pendingChanges filePath
                        { change with newContent := newContent, diff := newDiff } })
    else (OpResult.errHunkNotFound, st)

/-- `clearAllChanges()`: promote every pending change's `newContent` into
the snapshot store, then clear the pending map. -/
def clearAllChanges (st : DMState) : DMState :=
  { st with
      fileSnapshots := st.pendingChanges.foldl
        (fun m p => mapSet m p.1 p.2.newContent) st.fileSnapshots,
      pendingChanges := [] }

/-- Insert into a timestamp-descending list, after entries with the same
timestamp (the stable order `Array.prototype.sort` produces for the
comparator `(a, b) => b.timestamp - a.timestamp`). -/
def insertByTime (x : PendingChange) : List PendingChange → List PendingChange
  | [] => [x]
  | y :: ys => if y.timestamp < x.timestamp then x :: y :: ys else y :: insertByTime x ys

/-- Stable sort by descending timestamp. -/
def sortByTimeDesc (l : List PendingChange) : List PendingChange :=
  l.foldr insertByTime []

/-- `getPendingChanges()`: all pending values, most recent first. -/
def getPendingChanges (st : DMState) : List PendingChange :=
  sortByTimeDesc (st.pendingChanges.map Prod.snd)

/-- `getFileDiff(filePath)`. -/
def getFileDiff (st : DMState) (filePath : String) : Option PendingChange :=
  mapGet st.pendingChanges filePath

/-- One inbound operation of the subsystem, carrying the filesystem data
the corresponding handler would observe. -/
inductive Op where
  | watchEv (e : FileEvent) : Op
  | snapFile (path : String) (fileThere readOk : Bool) (content : String) : Op
  | snapDir (dirPath : String) (entries : List FSEntry) : Op
  | accept (path : String) : Op
  | revert (path : String) (writeErr : Option String) : Op
  | revertOneHunk (path : String) (idx : Nat) (writeErr : Option String) : Op
  | clearAll : Op

/-- The state transition of one operation. -/
def step (st : DMState) : Op → DMState
  | Op.watchEv e => watchCallback st e
  | Op.snapFile p t r c => (snapshotFile st p t r c).2
  | Op.snapDir d es => snapshotDirectory st d es
  | Op.accept p => (acceptChanges st p).2
  | Op.revert p w => (revertChanges st p w).2
  | Op.revertOneHunk p i w => (revertHunk st p i w).2
  | Op.clearAll => clearAllChanges st

/-- Run a sequence of operations from a state. -/
def runOps (st : DMState) (ops : List Op) : DMState :=
  ops.foldl step st

/-! ## Association-list map lemmas -/

theorem mapGet_mapSet_self (m : List (String × α)) (k : String) (v : α) :
    mapGet (mapSet m k v) k = some v := by
  induction m with
  | nil => simp [mapSet, mapGet, List.find?]
  | cons p rest ih =>
    by_cases h : p.1 = k
    · simp [mapSet, h, mapGet, List.find?]
    · simp only [mapSet, if_neg h, mapGet, List.find?, h, decide_False] at ih ⊢
      simpa [h] using ih

theorem mapGet_mapSet_ne (m : List (String × α)) (k k' : String) (v : α)
    (h : k' ≠ k) : mapGet (mapSet m k v) k' = mapGet m k' := by
  induction m with
  | nil => simp [mapSet, mapGet, List.find?, Ne.symm h]
  | cons p rest ih =>
    by_cases hp : p.1 = k
    · simp only [mapSet, if_pos hp, mapGet, List.find?]
      simp [Ne.symm h, hp ▸ Ne.symm h]
    · simp only [mapSet, if_neg hp, mapGet, List.find?] at ih ⊢
      by_cases hq : p.1 = k'
      · simp [hq]
      · simpa [hq] using ih

theorem length_mapSet_of_get_none (m : List (String × α)) (k : String) (v : α)
    (h : mapGet m k = none) : (mapSet m k v).length = m.length + 1 := by
  induction m with
  | nil => simp [mapSet]
  | cons p rest ih =>
    simp only [mapGet, List.find?] at h
    by_cases hp : p.1 = k
    · simp [hp] at h
    · simp only [hp, decide_False] at h
      simp only [mapSet, if_neg hp, List.length_cons]
      rw [ih]
      simpa [mapGet] using h

theorem mem_mapSet (pr : String × α) (m : List (String × α)) (k : String) (v : α)
    (hm : pr ∈ mapSet m k v) : pr = (k, v) ∨ pr ∈ m := by
  induction m with
  | nil => simpa [mapSet] using hm
  | cons p rest ih =>
    by_cases hp : p.1 = k
    · rw [mapSet, if_pos hp] at hm
      rcases List.mem_cons.mp hm with h | h
      · exact Or.inl h
      · exact Or.inr (List.mem_cons_of_mem _ h)
    · rw [mapSet, if_neg hp] at hm
      rcases List.mem_cons.mp hm with h | h
      · exact Or.inr (h ▸ List.mem_cons_self _ _)
      · rcases ih h with h2 | h2
        · exact Or.inl h2
        · exact Or.inr (List.mem_cons_of_mem _ h2)

theorem mapGet_some_mem (m : List (String × α)) (k : String) (v : α)
    (h : mapGet m k = some v) : (k, v) ∈ m := by
  induction m with
  | nil => simp [mapGet, List.find?] at h
  | cons p rest ih =>
    simp only [mapGet, List.find?] at h
    by_cases hp : p.1 = k
    · simp only [hp, decide_True] at h
      have h2 : p.2 = v := by simpa using h
      have hkv : (k, v) = p := by rw [← hp, ← h2]
      exact List.mem_cons.mpr (Or.inl hkv)
    · simp only [hp, decide_False] at h
      exact List.mem_cons_of_mem _ (ih (by simpa [mapGet] using h))

theorem mem_mapDelete (pr : String × α) (m : List (String × α)) (k : String)
    (hm : pr ∈ mapDelete m k) : pr ∈ m :=
  List.mem_of_mem_filter hm

/-! ## Claims about the change tracker -/

/-- `revertChanges` with an existing pending change and a successful
write writes `oldContent` back to disk, resets the snapshot to
`oldContent` and deletes the pending entry; it fails with the
no-pending-changes error when no pending change exists and with the
propagated I/O error when the write throws, leaving the whole state
unchanged in both failure cases (claim C6). -/
theorem c6_revert_semantics (st : DMState) (p : String) :
    (∀ ch, mapGet st.pendingChanges p = some ch →
      revertChanges st p none =
        (OpResult.ok,
          { st with disk := mapSet st.disk p ch.oldContent,
                    fileSnapshots := mapSet st.fileSnapshots p ch.oldContent,
                    pendingChanges := mapDelete st.pendingChanges p }) ∧
      ∀ msg, revertChanges st p (some msg) = (OpResult.errIo msg, st)) ∧
    (mapGet st.pendingChanges p = none →
      ∀ w, revertChanges st p w = (OpResult.errNoPending, st)) := by
  constructor
  · intro ch h
    constructor
    · simp [revertChanges, h]
    · intro msg
      simp [revertChanges, h]
  · intro h w
    simp [revertChanges, h]

/-- Witness for C6 at a concrete state: one pending change on `"p/f"`,
exercised with a successful write, a failing write, and a missing path. -/
theorem c6_revert_semantics_witness :
    (revertChanges
        ⟨[("p/f", "new")],
         [("p/f", ⟨"p/f", "f", "old", "new", generateDiff "old" "new", 5⟩)],
         []⟩ "p/f" none =
      (OpResult.ok,
        ⟨[("p/f", "old")],
         [],
         [("p/f", "old")]⟩)) ∧
    (revertChanges
        ⟨[("p/f", "new")],
         [("p/f", ⟨"p/f", "f", "old", "new", generateDiff "old" "new", 5⟩)],
         []⟩ "p/f" (some "disk full") =
      (OpResult.errIo "disk full",
        ⟨[("p/f", "new")],
         [("p/f", ⟨"p/f", "f", "old", "new", generateDiff "old" "new", 5⟩)],
         []⟩)) ∧
    (revertChanges initState "missing" none = (OpResult.errNoPending, initState)) := by
  have h := c6_revert_semantics
    ⟨[("p/f", "new")],
     [("p/f", ⟨"p/f", "f", "old", "new", generateDiff "old" "new", 5⟩)],
     []⟩ "p/f"
  have h1 := h.1 ⟨"p/f", "f", "old", "new", generateDiff "old" "new", 5⟩ (by decide)
  refine ⟨?_, ?_, ?_⟩
  · rw [h1.1]
    decide
  · exact h1.2 "disk full"
  · exact (c6_revert_semantics initState "missing").2 (by decide) none

/-- `handleFileChange` reads `oldContent` from the snapshot map, which
the previous event already advanced to its own content: after a baseline
of `"a"` and two successive observed contents `"b"`, `"c"` with no accept
or revert in between, the pending change's `oldContent` is `"b"`, the
previously observed content, not the baseline `"a"` the claim (and the
code's own `// Store original file contents` comment) promise (claim C3). -/
theorem c3_oldContent_drifts :
    (mapGet (runOps ⟨[("p/f.txt", "a")], [], []⟩
        [Op.watchEv ⟨"f.txt", "p", true, true, true, true, 10, true, "b", 1⟩,
         Op.watchEv ⟨"f.txt", "p", true, true, true, true, 10, true, "c", 2⟩]).pendingChanges
      "p/f.txt").map PendingChange.oldContent = some "b" ∧ ("b" : String) ≠ "a" := by
  decide

/-- `snapshotFile` (the Snapshot Store's `capture`) has no size check at
all: capturing an existing readable file always stores its content,
whatever its length (part of the C5 correction). -/
theorem c5_capture_ignores_size (st : DMState) (p c : String) :
    mapGet ((snapshotFile st p true true c).2).fileSnapshots p = some c := by
  simp only [snapshotFile, Bool.and_self, if_pos rfl]
  exact mapGet_mapSet_self st.fileSnapshots p c

/-- Counterexample to claim C5: scanning a directory holding a file one
byte over the 1 MB limit of `handleFileChange` stores that file in the
snapshot map — `snapshotDirectory`/`snapshotFile` never look at sizes. -/
theorem c5_counterexample :
    (String.mk (List.replicate (1024 * 1024 + 1) 'a')).length = 1024 * 1024 + 1 ∧
    mapGet (snapshotDirectory initState "p"
        [FSEntry.file "big.js" (String.mk (List.replicate (1024 * 1024 + 1) 'a'))]).fileSnapshots
      (pathJoin "p" "big.js") =
      some (String.mk (List.replicate (1024 * 1024 + 1) 'a')) := by
  constructor
  · show (List.replicate (1024 * 1024 + 1) 'a').length = 1024 * 1024 + 1
    exact List.length_replicate _ _
  · rfl

theorem replicate_str_inj {i j : Nat}
    (h : String.mk (List.replicate i 'a') = String.mk (List.replicate j 'a')) :
    i = j := by
  have hd : List.replicate i 'a' = List.replicate j 'a' := by
    injection h
  have := congrArg List.length hd
  simpa using this

/-- Counterexample to claim C4: no bound `B` caps the snapshot store —
capturing `B + 1` files with distinct paths yields `B + 1` entries, since
`snapshotFile` never evicts and `snapshotDirectory` never stops early. -/
theorem c4_counterexample :
    ¬ ∃ B : Nat, ∀ ops : List Op,
      ((runOps initState ops).fileSnapshots).length ≤ B := by
  rintro ⟨B, hB⟩
  have key : ∀ (t s : Nat) (st : DMState),
      (∀ i, s ≤ i → mapGet st.fileSnapshots (String.mk (List.replicate i 'a')) = none) →
      ((runOps st ((List.range' s t).map fun i =>
          Op.snapFile (String.mk (List.replicate i 'a')) true true "c")).fileSnapshots).length =
        st.fileSnapshots.length + t := by
    intro t
    induction t with
    | zero =>
      intro s st _
      simp [runOps]
    | succ t ih =>
      intro s st h
      rw [List.range'_succ, List.map_cons]
      have hstep : runOps st
          (Op.snapFile (String.mk (List.replicate s 'a')) true true "c" ::
            (List.range' (s + 1) t).map fun i =>
              Op.snapFile (String.mk (List.replicate i 'a')) true true "c") =
          runOps ((snapshotFile st (String.mk (List.replicate s 'a')) true true "c").2)
            ((List.range' (s + 1) t).map fun i =>
              Op.snapFile (String.mk (List.replicate i 'a')) true true "c") := rfl
      rw [hstep]
      have hlen : ((snapshotFile st (String.mk (List.replicate s 'a')) true true "c").2).fileSnapshots.length =
          st.fileSnapshots.length + 1 := by
        simp only [snapshotFile, Bool.and_self, if_pos rfl]
        exact length_mapSet_of_get_none _ _ _ (h s le_rfl)
      have hrest : ∀ i, s + 1 ≤ i →
          mapGet ((snapshotFile st (String.mk (List.replicate s 'a')) true true
            "c").2).fileSnapshots (String.mk (List.replicate i 'a')) = none := by
        intro i hi
        have hne : String.mk (List.replicate i 'a') ≠ String.mk (List.replicate s 'a') := by
          intro he
          have := replicate_str_inj he
          omega
        calc mapGet ((snapshotFile st (String.mk (List.replicate s 'a')) true true
                "c").2).fileSnapshots (String.mk (List.replicate i 'a'))
            = mapGet (mapSet st.fileSnapshots (String.mk (List.replicate s 'a')) "c")
              (String.mk (List.replicate i 'a')) := rfl
          _ = mapGet st.fileSnapshots (String.mk (List.replicate i 'a')) :=
              mapGet_mapSet_ne _ _ _ _ hne
          _ = none := h i (by omega)
      rw [ih (s + 1) _ hrest, hlen]
      omega
  have hfinal := key (B + 1) 0 initState (fun i _ => rfl)
  have := hB ((List.range' 0 (B + 1)).map fun i =>
    Op.snapFile (String.mk (List.replicate i 'a')) true true "c")
  rw [hfinal] at this
  simp [initState] at this

/-- The snapshot store is unbounded (C4 amended): capturing a file that
is not yet tracked always grows the store by exactly one entry; there is
no `MAX_TRACKED_FILES` constant, no eviction, and no early stop in the
directory scan. -/
theorem c4_no_eviction (st : DMState) (p c : String)
    (h : mapGet st.fileSnapshots p = none) :
    ((snapshotFile st p true true c).2).fileSnapshots.length =
      st.fileSnapshots.length + 1 := by
  simp only [snapshotFile, Bool.and_self, if_pos rfl]
  exact length_mapSet_of_get_none _ p c h

/-- Witness for the C4 amended theorem at the empty store. -/
theorem c4_no_eviction_witness :
    ((snapshotFile initState "f" true true "c").2).fileSnapshots.length =
      initState.fileSnapshots.length + 1 :=
  c4_no_eviction initState "f" "c" rfl

/-- Counterexample to claim C10: the relative path `dist/x.js` contains
`dist/` and is matched by the unanchored filter, yet the directory scan
— which applies the filter only to each entry's base name (`dist`,
`x.js`, neither of which contains `dist/`) — snapshots the file anyway. -/
theorem c10_counterexample :
    hasSub (pathJoin "dist" "x.js").data "dist/".data = true ∧
    shouldIgnoreFile (pathJoin "dist" "x.js") = true ∧
    mapGet (snapshotDirectory initState "p"
        [FSEntry.dir "dist" [FSEntry.file "x.js" "hello"]]).fileSnapshots
      (pathJoin "p" (pathJoin "dist" "x.js")) = some "hello" := by
  decide

/-- The ignore filter is an unanchored substring test, so `.gitignore`,
`.github` and any path containing `dist/` or `build/` match it, and the
watcher callback drops every matching relative path before any state
change; the directory scan, however, tests only each entry's own name,
skipping that entry (C10 amended). -/
theorem c10_filter_semantics :
    (shouldIgnoreFile ".gitignore" = true ∧ shouldIgnoreFile ".github" = true ∧
     shouldIgnoreFile "src/.git/config" = true ∧
     shouldIgnoreFile "a/dist/b.js" = true ∧
     shouldIgnoreFile "out/build/x.o" = true) ∧
    (∀ (st : DMState) (e : FileEvent), shouldIgnoreFile e.filename = true →
      watchCallback st e = st) ∧
    (∀ (recur : DMState → String → List FSEntry → DMState) (dirPath : String)
        (st : DMState) (name content : String) (rest : List FSEntry),
      shouldIgnoreFile name = true →
        snapList recur dirPath st (FSEntry.file name content :: rest) =
          snapList recur dirPath st rest) ∧
    (∀ (recur : DMState → String → List FSEntry → DMState) (dirPath : String)
        (st : DMState) (name : String) (sub rest : List FSEntry),
      shouldIgnoreFile name = true →
        snapList recur dirPath st (FSEntry.dir name sub :: rest) =
          snapList recur dirPath st rest) := by
  refine ⟨by decide, ?_, ?_, ?_⟩
  · intro st e h
    simp [watchCallback, h]
  · intro recur dirPath st name content rest h
    simp [snapList, h]
  · intro recur dirPath st name sub rest h
    simp [snapList, h]

/-- Witness for the C10 amended theorem: a watcher event for
`.gitignore` leaves the state untouched. -/
theorem c10_filter_semantics_witness :
    watchCallback initState ⟨".gitignore", "p", true, true, true, true, 10, true, "x", 1⟩ =
      initState :=
  c10_filter_semantics.2.1 initState
    ⟨".gitignore", "p", true, true, true, true, 10, true, "x", 1⟩ (by decide)

/-! ## The watcher's size guard (claim C7) -/

theorem snapList_pending (recur : DMState → String → List FSEntry → DMState)
    (hrec : ∀ st d es, (recur st d es).pendingChanges = st.pendingChanges) :
    ∀ (es : List FSEntry) (st : DMState) (d : String),
      (snapList recur d st es).pendingChanges = st.pendingChanges := by
  intro es
  induction es with
  | nil => intro st d; rfl
  | cons e rest ih =>
    intro st d
    cases e with
    | file name content =>
      by_cases hig : shouldIgnoreFile name
      · simp only [snapList, hig, if_true]
        exact ih st d
      · simp only [snapList, hig, Bool.false_eq_true, if_false]
        rw [ih]
        rfl
    | dir name sub =>
      by_cases hig : shouldIgnoreFile name
      · simp only [snapList, hig, if_true]
        exact ih st d
      · simp only [snapList, hig, Bool.false_eq_true, if_false]
        rw [ih, hrec]

theorem snapDirFuel_pending :
    ∀ (fuel : Nat) (st : DMState) (d : String) (es : List FSEntry),
      (snapDirFuel fuel st d es).pendingChanges = st.pendingChanges := by
  intro fuel
  induction fuel with
  | zero => intro st d es; rfl
  | succ fuel ih =>
    intro st d es
    exact snapList_pending (snapDirFuel fuel) (fun st2 d2 es2 => ih st2 d2 es2) es st d

/-- No pending-map entry mentions path `p`, neither as key nor in its
`path` field. -/
def pendingAvoids (p : String) (st : DMState) : Prop :=
  ∀ pr ∈ st.pendingChanges, pr.1 ≠ p ∧ pr.2.path ≠ p

theorem handleFileChange_avoids (p : String) (st : DMState) (q : String)
    (e : FileEvent) (hinv : pendingAvoids p st)
    (hq : q = p → e.size > 1024 * 1024) :
    pendingAvoids p (handleFileChange st q e) := by
  unfold handleFileChange
  split
  · exact hinv
  · split
    · exact hinv
    · split
      · exact hinv
      · split
        · exact hinv
        · rename_i hsize _
          intro pr hpr
          simp only at hpr
          have hqp : q ≠ p := by
            intro hqe
            exact hsize (by simpa using hq hqe)
          split at hpr
          · exact hinv pr hpr
          · rename_i oldContent _
            split at hpr
            · simp only at hpr
              rcases mem_mapSet pr _ _ _ hpr with he | he
              · subst he
                exact ⟨hqp, hqp⟩
              · exact hinv pr he
            · exact hinv pr hpr

theorem step_preserves_avoids (p : String) (st : DMState) (op : Op)
    (hinv : pendingAvoids p st)
    (hop : ∀ e : FileEvent, op = Op.watchEv e →
      pathJoin e.projectPath e.filename = p → e.size > 1024 * 1024) :
    pendingAvoids p (step st op) := by
  cases op with
  | watchEv e =>
    show pendingAvoids p (watchCallback st e)
    unfold watchCallback
    split
    · exact hinv
    · split
      · exact handleFileChange_avoids p st _ e hinv (hop e rfl)
      · exact hinv
  | snapFile p2 t r c =>
    show pendingAvoids p ((snapshotFile st p2 t r c).2)
    unfold snapshotFile
    split
    · exact hinv
    · exact hinv
  | snapDir d es =>
    intro pr hpr
    rw [show (step st (Op.snapDir d es)).pendingChanges = st.pendingChanges from
      snapDirFuel_pending 6 st d es] at hpr
    exact hinv pr hpr
  | accept p2 =>
    show pendingAvoids p ((acceptChanges st p2).2)
    unfold acceptChanges
    split
    · intro pr hpr
      simp only at hpr
      exact hinv pr (mem_mapDelete pr _ _ hpr)
    · exact hinv
  | revert p2 w =>
    show pendingAvoids p ((revertChanges st p2 w).2)
    unfold revertChanges
    split
    · split
      · intro pr hpr
        simp only at hpr
        exact hinv pr (mem_mapDelete pr _ _ hpr)
      · exact hinv
    · exact hinv
  | revertOneHunk p2 idx w =>
    show pendingAvoids p ((revertHunk st p2 idx w).2)
    unfold revertHunk
    split
    · exact hinv
    · rename_i change hget
      split
      · split
        · exact hinv
        · dsimp only
          split
          · intro pr hpr
            simp only at hpr
            exact hinv pr (mem_mapDelete pr _ _ hpr)
          · intro pr hpr
            simp only at hpr
            rcases mem_mapSet pr _ _ _ hpr with he | he
            · have hmem := mapGet_some_mem _ _ _ hget
              have h2 := hinv (p2, change) hmem
              subst he
              exact ⟨h2.1, h2.2⟩
            · exact hinv pr he
      · exact hinv
  | clearAll =>
    intro pr hpr
    simp [step, clearAllChanges] at hpr

theorem mem_insertByTime {x y : PendingChange} :
    ∀ {l : List PendingChange}, x ∈ insertByTime y l → x = y ∨ x ∈ l := by
  intro l
  induction l with
  | nil =>
    intro h
    simp only [insertByTime, List.mem_singleton] at h
    exact Or.inl h
  | cons z l ih =>
    intro h
    rw [insertByTime] at h
    split at h
    · rcases List.mem_cons.mp h with h | h
      · exact Or.inl h
      · exact Or.inr h
    · rcases List.mem_cons.mp h with h | h
      · exact Or.inr (h ▸ List.mem_cons_self _ _)
      · rcases ih h with h2 | h2
        · exact Or.inl h2
        · exact Or.inr (List.mem_cons_of_mem _ h2)

theorem mem_sortByTimeDesc {x : PendingChange} :
    ∀ {l : List PendingChange}, x ∈ sortByTimeDesc l → x ∈ l := by
  intro l
  induction l with
  | nil => intro h; simp [sortByTimeDesc] at h
  | cons y l ih =>
    intro h
    rw [sortByTimeDesc, List.foldr_cons] at h
    rcases mem_insertByTime h with h | h
    · exact h ▸ List.mem_cons_self _ _
    · exact List.mem_cons_of_mem _ (ih h)

/-- Under a watch, a file whose change events all carry a size above the
1 MB limit never appears in `getPendingChanges()`: the size guard of
`handleFileChange` discards every such event before a pending change can
be created, and no other operation creates one (claim C7). -/
theorem c7_large_file_never_pending (p : String) (ops : List Op)
    (hops : ∀ e : FileEvent, Op.watchEv e ∈ ops →
      pathJoin e.projectPath e.filename = p → e.size > 1024 * 1024) :
    ∀ ch ∈ getPendingChanges (runOps initState ops), ch.path ≠ p := by
  have hmain : ∀ (os : List Op) (st : DMState), pendingAvoids p st →
      (∀ e : FileEvent, Op.watchEv e ∈ os →
        pathJoin e.projectPath e.filename = p → e.size > 1024 * 1024) →
      pendingAvoids p (runOps st os) := by
    intro os
    induction os with
    | nil => intro st h _; exact h
    | cons op rest ih =>
      intro st h hos
      rw [runOps, List.foldl_cons]
      exact ih (step st op)
        (step_preserves_avoids p st op h
          (fun e he => hos e (he ▸ List.mem_cons_self _ _)))
        (fun e he hpe => hos e (List.mem_cons_of_mem _ he) hpe)
  have hrun : pendingAvoids p (runOps initState ops) :=
    hmain ops initState (fun pr hpr => by simp [initState] at hpr) hops
  intro ch hch
  obtain ⟨pr, hpr, hpr2⟩ := List.mem_map.mp (mem_sortByTimeDesc hch)
  exact hpr2 ▸ (hrun pr hpr).2

/-- Witness for C7: one tracked small file and a 2 MB file; after a
baseline snapshot, a small-file edit and two oversized edits, the
oversized path is absent from the pending list. -/
theorem c7_large_file_never_pending_witness :
    (⟨"p/small", "small", "a", "b", generateDiff "a" "b", 3⟩ : PendingChange).path ≠
      pathJoin "p" "big.bin" := by
  have h := c7_large_file_never_pending (pathJoin "p" "big.bin")
    [Op.snapFile "p/small" true true "a",
     Op.watchEv ⟨"big.bin", "p", true, true, true, true, 2 * 1024 * 1024, true, "x", 2⟩,
     Op.watchEv ⟨"small", "p", true, true, true, true, 1, true, "b", 3⟩,
     Op.watchEv ⟨"big.bin", "p", true, true, true, true, 2 * 1024 * 1024, true, "y", 4⟩]
    ?_ ⟨"p/small", "small", "a", "b", generateDiff "a" "b", 3⟩ ?_
  · exact h
  · intro e he hpe
    cases he with
    | tail _ he2 =>
      cases he2 with
      | head => decide
      | tail _ he3 =>
        cases he3 with
        | head => exact absurd hpe (by decide)
        | tail _ he4 =>
          cases he4 with
          | head => decide
          | tail _ he5 => cases he5
  · decide

/-! ## Pending changes always carry a non-empty diff (claim C9) -/

theorem generateDiff_ne_nil {a b : String} (h : a ≠ b) : generateDiff a b ≠ [] := by
  intro hd
  apply h
  apply splitLines_injective
  have h2 := applyDiff_diffLines (splitLines a) (splitLines b)
  rw [show diffLines (splitLines a) (splitLines b) = generateDiff a b from rfl, hd] at h2
  simpa [applyDiff, applyHunksAux] using h2

/-- Every entry of the pending-change map carries a non-empty `diff`. -/
def pendingDiffsNonempty (st : DMState) : Prop :=
  ∀ pr ∈ st.pendingChanges, pr.2.diff ≠ []

theorem handleFileChange_diffs_nonempty (st : DMState) (q : String) (e : FileEvent)
    (hinv : pendingDiffsNonempty st) :
    pendingDiffsNonempty (handleFileChange st q e) := by
  unfold handleFileChange
  split
  · exact hinv
  · split
    · exact hinv
    · split
      · exact hinv
      · split
        · exact hinv
        · intro pr hpr
          simp only at hpr
          split at hpr
          · exact hinv pr hpr
          · rename_i oldContent _
            split at hpr
            · rename_i hne
              simp only at hpr
              rcases mem_mapSet pr _ _ _ hpr with he | he
              · subst he
                exact generateDiff_ne_nil hne
              · exact hinv pr he
            · exact hinv pr hpr

theorem step_preserves_diffs_nonempty (st : DMState) (op : Op)
    (hinv : pendingDiffsNonempty st) :
    pendingDiffsNonempty (step st op) := by
  cases op with
  | watchEv e =>
    show pendingDiffsNonempty (watchCallback st e)
    unfold watchCallback
    split
    · exact hinv
    · split
      · exact handleFileChange_diffs_nonempty st _ e hinv
      · exact hinv
  | snapFile p2 t r c =>
    show pendingDiffsNonempty ((snapshotFile st p2 t r c).2)
    unfold snapshotFile
    split
    · exact hinv
    · exact hinv
  | snapDir d es =>
    intro pr hpr
    rw [show (step st (Op.snapDir d es)).pendingChanges = st.pendingChanges from
      snapDirFuel_pending 6 st d es] at hpr
    exact hinv pr hpr
  | accept p2 =>
    show pendingDiffsNonempty ((acceptChanges st p2).2)
    unfold acceptChanges
    split
    · intro pr hpr
      simp only at hpr
      exact hinv pr (mem_mapDelete pr _ _ hpr)
    · exact hinv
  | revert p2 w =>
    show pendingDiffsNonempty ((revertChanges st p2 w).2)
    unfold revertChanges
    split
    · split
      · intro pr hpr
        simp only at hpr
        exact hinv pr (mem_mapDelete pr _ _ hpr)
      · exact hinv
    · exact hinv
  | revertOneHunk p2 idx w =>
    show pendingDiffsNonempty ((revertHunk st p2 idx w).2)
    unfold revertHunk
    split
    · exact hinv
    · rename_i change hget
      split
      · split
        · exact hinv
        · dsimp only
          split
          · intro pr hpr
            simp only at hpr
            exact hinv pr (mem_mapDelete pr _ _ hpr)
          · rename_i hne
            intro pr hpr
            simp only at hpr
            rcases mem_mapSet pr _ _ _ hpr with he | he
            · subst he
              exact hne
            · exact hinv pr he
      · exact hinv
  | clearAll =>
    intro pr hpr
    simp [step, clearAllChanges] at hpr

/-- Starting from the module's empty initial state, no reachable state
holds a pending change with an empty hunk list: a pending change is only
created when old and new content differ (which always yields at least
one hunk), and `revertHunk` deletes the entry whenever the recomputed
diff is empty (claim C9). -/
theorem c9_pending_diffs_nonempty (ops : List Op) :
    ∀ pr ∈ (runOps initState ops).pendingChanges, pr.2.diff ≠ [] := by
  have hmain : ∀ (os : List Op) (st : DMState), pendingDiffsNonempty st →
      pendingDiffsNonempty (runOps st os) := by
    intro os
    induction os with
    | nil => intro st h; exact h
    | cons op rest ih =>
      intro st h
      rw [runOps, List.foldl_cons]
      exact ih (step st op) (step_preserves_diffs_nonempty st op h)
  exact hmain ops initState (fun pr hpr => by simp [initState] at hpr)

/-- Witness for C9: the pending entry created by a baseline snapshot
`"a"` followed by an observed change to `"b"` has a non-empty diff. -/
theorem c9_pending_diffs_nonempty_witness :
    (("p/f", (⟨"p/f", "f", "a", "b", generateDiff "a" "b", 1⟩ : PendingChange)) :
      String × PendingChange).2.diff ≠ [] :=
  c9_pending_diffs_nonempty
    [Op.snapFile "p/f" true true "a",
     Op.watchEv ⟨"f", "p", true, true, true, true, 1, true, "b", 1⟩]
    ("p/f", ⟨"p/f", "f", "a", "b", generateDiff "a" "b", 1⟩) (by decide)

/-! ## Claim C2: algorithm selection by input size

The spec describes a `MAX_DIFF_LINES` threshold above which `diff` is to
switch to a forward index-match path.  No such constant or path exists in
`generateDiff`; the definitions below model the described large-file path
from the spec so that the selection claim can be stated and refuted. -/

/-- Modelled from the spec: the ordered list of positions a line content
occupies in the new text, starting the position count at `i` (the
content-to-positions map of the large-file path, read off at one key). -/
def positionsFrom : List String → Nat → String → List Nat
  | [], _, _ => []
  | l :: rest, i, s =>
    if l = s then i :: positionsFrom rest (i + 1) s
    else positionsFrom rest (i + 1) s

/-- Modelled from the spec: all positions of `s` in the new line list. -/
def positions (n : List String) (s : String) : List Nat :=
  positionsFrom n 0 s

/-- Modelled from the spec: scan the old text left to right; for each old
line choose the first candidate position strictly greater than the last
accepted new position (`minNext` is one past the last accepted position);
lines with no forward candidate are left unmatched. -/
def greedyGo (n : List String) : List String → Nat → Nat → List (Nat × Nat)
  | [], _, _ => []
  | l :: rest, oldI, minNext =>
    match (positions n l).find? fun j => decide (minNext ≤ j) with
    | some j => (oldI, j) :: greedyGo n rest (oldI + 1) (j + 1)
    | none => greedyGo n rest (oldI + 1) minNext

/-- Modelled from the spec: the monotonic forward match list of the
large-file path. -/
def greedyMatch (o n : List String) : List (Nat × Nat) :=
  greedyGo n o 0 0

/-- Modelled from the spec: the large-file diff path — forward index
matching, followed by hunk construction "identical to the exact path". -/
def specLargeDiffLines (o n : List String) : List Hunk :=
  buildHunks o n (greedyMatch o n) 0 0

/-! ### The DP table and backtrack only read the line lists below the
cursor, so a common appended suffix leaves the low region unchanged -/

theorem dpT_take_agnostic (o n u v : List String) :
    ∀ i, i ≤ o.length → ∀ j, j ≤ n.length →
      dpT (o ++ u) (n ++ v) i j = dpT o n i j := by
  intro i
  induction i with
  | zero => intro _ j _; rfl
  | succ i ih =>
    intro hi j
    induction j with
    | zero => intro _; rw [dpT_zero_right, dpT_zero_right]
    | succ j ihj =>
      intro hj
      rw [dpT_succ_succ, dpT_succ_succ,
        List.getD_append _ _ _ _ (by omega), List.getD_append _ _ _ _ (by omega),
        ih (by omega) j (by omega), ih (by omega) (j + 1) hj, ihj (by omega)]

theorem backtrack_take_agnostic (o n u v : List String) :
    ∀ i, i ≤ o.length → ∀ j, j ≤ n.length →
      backtrack (o ++ u) (n ++ v) i j = backtrack o n i j := by
  intro i
  induction i with
  | zero => intro _ j _; rfl
  | succ i ih =>
    intro hi j
    induction j with
    | zero => intro _; rw [backtrack_zero_right, backtrack_zero_right]
    | succ j ihj =>
      intro hj
      rw [backtrack_succ_succ, backtrack_succ_succ,
        List.getD_append _ _ _ _ (by omega), List.getD_append _ _ _ _ (by omega),
        dpT_take_agnostic o n u v i (by omega) (j + 1) hj,
        dpT_take_agnostic o n u v (i + 1) hi j (by omega),
        ih (by omega) j (by omega), ih (by omega) (j + 1) hj, ihj (by omega)]

theorem backtrack_snoc_match (o n : List String) (x : String) :
    backtrack (o ++ [x]) (n ++ [x]) (o.length + 1) (n.length + 1) =
      backtrack o n o.length n.length ++ [(o.length, n.length)] := by
  rw [backtrack_succ_succ]
  rw [List.getD_append_right _ _ _ _ (le_refl o.length),
    List.getD_append_right _ _ _ _ (le_refl n.length)]
  simp only [Nat.sub_self, List.getD_cons_zero, if_pos rfl]
  rw [backtrack_take_agnostic o n [x] [x] o.length le_rfl n.length le_rfl]
  simp

theorem computeLCS_pad (o n : List String) (x : String) :
    ∀ t : Nat,
      computeLCS (o ++ List.replicate t x) (n ++ List.replicate t x) =
        computeLCS o n ++
          (List.range t).map fun k => (o.length + k, n.length + k) := by
  intro t
  induction t with
  | zero => simp [computeLCS]
  | succ t ih =>
    have hsplit : ∀ (l : List String),
        l ++ List.replicate (t + 1) x = (l ++ List.replicate t x) ++ [x] := by
      intro l
      rw [List.replicate_succ' t x, List.append_assoc]
    rw [show computeLCS (o ++ List.replicate (t + 1) x) (n ++ List.replicate (t + 1) x) =
        backtrack (o ++ List.replicate (t + 1) x) (n ++ List.replicate (t + 1) x)
          (o.length + (t + 1)) (n.length + (t + 1)) from by
      simp [computeLCS]]
    rw [hsplit o, hsplit n]
    have hlo : o.length + (t + 1) = (o ++ List.replicate t x).length + 1 := by
      simp only [List.length_append, List.length_replicate]; omega
    have hln : n.length + (t + 1) = (n ++ List.replicate t x).length + 1 := by
      simp only [List.length_append, List.length_replicate]; omega
    rw [hlo, hln, backtrack_snoc_match]
    rw [show backtrack (o ++ List.replicate t x) (n ++ List.replicate t x)
        (o ++ List.replicate t x).length (n ++ List.replicate t x).length =
        computeLCS (o ++ List.replicate t x) (n ++ List.replicate t x) from rfl]
    rw [ih, List.range_succ, List.map_append, List.append_assoc]
    simp

theorem positionsFrom_append (s : String) :
    ∀ (u v : List String) (i : Nat),
      positionsFrom (u ++ v) i s =
        positionsFrom u i s ++ positionsFrom v (i + u.length) s := by
  intro u
  induction u with
  | nil => intro v i; simp [positionsFrom]
  | cons l rest ih =>
    intro v i
    simp only [List.cons_append, positionsFrom, List.append_eq, List.length_cons]
    rw [ih]
    have harith : i + 1 + rest.length = i + (rest.length + 1) := by omega
    split
    · rw [List.cons_append, harith]
    · rw [harith]

theorem positionsFrom_replicate_self (x : String) :
    ∀ (t i : Nat),
      positionsFrom (List.replicate t x) i x = (List.range t).map (· + i) := by
  intro t
  induction t with
  | zero => intro i; simp [positionsFrom]
  | succ t ih =>
    intro i
    rw [List.replicate_succ]
    simp only [positionsFrom, eq_self_iff_true, if_true]
    rw [ih (i + 1), List.range_succ_eq_map, List.map_cons, List.map_map]
    simp only [Nat.zero_add]
    congr 1
    apply List.map_congr_left
    intro k _
    simp only [Function.comp_apply]
    omega

theorem positionsFrom_replicate_ne (x s : String) (h : s ≠ x) :
    ∀ (t i : Nat), positionsFrom (List.replicate t x) i s = [] := by
  intro t
  induction t with
  | zero => intro i; rfl
  | succ t ih =>
    intro i
    rw [List.replicate_succ]
    simp only [positionsFrom, if_neg (Ne.symm h)]
    exact ih (i + 1)

theorem find?_shifted_range :
    ∀ (t c m : Nat), c ≤ m → m < c + t →
      ((List.range t).map (· + c)).find? (fun j => decide (m ≤ j)) = some m := by
  intro t
  induction t with
  | zero => intro c m h1 h2; omega
  | succ t ih =>
    intro c m h1 h2
    rw [List.range_succ_eq_map, List.map_cons, List.map_map]
    have hshift : (List.range t).map ((· + c) ∘ Nat.succ) =
        (List.range t).map (· + (c + 1)) := by
      apply List.map_congr_left
      intro k _
      simp only [Function.comp_apply]
      omega
    rw [hshift]
    by_cases hm : m ≤ 0 + c
    · have hmc : m = c := by omega
      rw [List.find?_cons_of_pos _ (by simpa using hm)]
      simp [hmc]
    · rw [List.find?_cons_of_neg _ (by simpa using hm)]
      exact ih (c + 1) m (by omega) (by omega)

theorem greedyGo_cons (n : List String) (l : String) (rest : List String)
    (oldI minNext : Nat) :
    greedyGo n (l :: rest) oldI minNext =
      match (positions n l).find? fun j => decide (minNext ≤ j) with
      | some j => (oldI, j) :: greedyGo n rest (oldI + 1) (j + 1)
      | none => greedyGo n rest (oldI + 1) minNext := rfl

theorem positions_pad_x (t : Nat) :
    positions (["b", "a"] ++ List.replicate t "x") "x" =
      (List.range t).map (· + 2) := by
  unfold positions
  rw [positionsFrom_append, positionsFrom_replicate_self]
  rw [show positionsFrom ["b", "a"] 0 "x" = [] from rfl]
  rw [show 0 + (["b", "a"] : List String).length = 2 from rfl]
  rw [List.nil_append]

theorem positions_pad_a (t : Nat) :
    positions (["b", "a"] ++ List.replicate t "x") "a" = [1] := by
  unfold positions
  rw [positionsFrom_append, positionsFrom_replicate_ne "x" "a" (by decide)]
  rfl

theorem positions_pad_b (t : Nat) :
    positions (["b", "a"] ++ List.replicate t "x") "b" = [0] := by
  unfold positions
  rw [positionsFrom_append, positionsFrom_replicate_ne "x" "b" (by decide)]
  rfl

theorem greedyGo_xrun (t : Nat) :
    ∀ (r k oldI : Nat), k + r = t →
      greedyGo (["b", "a"] ++ List.replicate t "x") (List.replicate r "x") oldI (2 + k) =
        (List.range r).map fun i => (oldI + i, 2 + k + i) := by
  intro r
  induction r with
  | zero => intro k oldI _; rfl
  | succ r ih =>
    intro k oldI hk
    rw [List.replicate_succ, greedyGo_cons, positions_pad_x]
    rw [find?_shifted_range t 2 (2 + k) (by omega) (by omega)]
    simp only
    rw [show 2 + k + 1 = 2 + (k + 1) from by omega]
    rw [ih (k + 1) (oldI + 1) (by omega)]
    rw [List.range_succ_eq_map, List.map_cons, List.map_map]
    simp only [Nat.add_zero]
    congr 1
    apply List.map_congr_left
    intro i _
    simp only [Function.comp_apply, Prod.mk.injEq]
    omega

theorem greedyMatch_pad (t : Nat) :
    greedyMatch (["a", "b", "a"] ++ List.replicate t "x")
        (["b", "a"] ++ List.replicate t "x") =
      (0, 1) :: (List.range t).map fun i => (3 + i, 2 + i) := by
  unfold greedyMatch
  rw [show (["a", "b", "a"] ++ List.replicate t "x" : List String) =
      "a" :: "b" :: "a" :: List.replicate t "x" from rfl]
  rw [greedyGo_cons, positions_pad_a]
  rw [show ([1] : List Nat).find? (fun j => decide (0 ≤ j)) = some 1 from rfl]
  simp only
  rw [greedyGo_cons, positions_pad_b]
  rw [show ([0] : List Nat).find? (fun j => decide (1 + 1 ≤ j)) = none from rfl]
  simp only
  rw [greedyGo_cons, positions_pad_a]
  rw [show ([1] : List Nat).find? (fun j => decide (1 + 1 ≤ j)) = none from rfl]
  simp only
  have h := greedyGo_xrun t t 0 (2 + 1) (by omega)
  rw [show (2 : Nat) + 0 = 1 + 1 from rfl] at h
  rw [h]

theorem buildHunks_cons (o n : List String) (mo mn oi ni : Nat)
    (rest : List (Nat × Nat)) :
    buildHunks o n ((mo, mn) :: rest) oi ni =
      (if oi < mo ∨ ni < mn then
        [⟨oi + 1, ni + 1, mkRemoves o oi mo ++ mkAdds n ni mn⟩]
      else []) ++ buildHunks o n rest (max oi mo + 1) (max ni mn + 1) := rfl

theorem diffLines_pad_exact (t : Nat) :
    diffLines (["a", "b", "a"] ++ List.replicate t "x")
        (["b", "a"] ++ List.replicate t "x") =
      [⟨1, 1, [⟨LineType.remove, "a", 1⟩]⟩] := by
  unfold diffLines
  have hpad := computeLCS_pad ["a", "b", "a"] ["b", "a"] "x" t
  rw [show computeLCS ["a", "b", "a"] ["b", "a"] = [(1, 0), (2, 1)] from by decide,
    show (["a", "b", "a"] : List String).length = 3 from rfl,
    show (["b", "a"] : List String).length = 2 from rfl] at hpad
  rw [hpad]
  rw [show ([((1 : Nat), (0 : Nat)), (2, 1)] : List (Nat × Nat)) ++
      (List.range t).map (fun k => ((3 : Nat) + k, (2 : Nat) + k)) =
      (1, 0) :: (2, 1) :: (List.range t).map (fun k => (3 + k, 2 + k)) from rfl]
  rw [buildHunks_cons]
  rw [if_pos (Or.inl Nat.zero_lt_one)]
  rw [show mkRemoves (["a", "b", "a"] ++ List.replicate t "x") 0 1 =
      [⟨LineType.remove, "a", 1⟩] from rfl]
  rw [show mkAdds (["b", "a"] ++ List.replicate t "x") 0 0 = [] from rfl]
  rw [show max 0 1 + 1 = 2 from rfl, show max 0 0 + 1 = 1 from rfl]
  rw [buildHunks_cons, if_neg (by omega)]
  rw [show max 2 2 + 1 = 3 from rfl, show max 1 1 + 1 = 2 from rfl]
  rw [buildHunks_consec _ _ t 3 2
    (by simp only [List.length_append, List.length_cons, List.length_nil,
      List.length_replicate])
    (by simp only [List.length_append, List.length_cons, List.length_nil,
      List.length_replicate])]
  simp

theorem specLarge_pad (t : Nat) (ht : 1 ≤ t) :
    specLargeDiffLines (["a", "b", "a"] ++ List.replicate t "x")
        (["b", "a"] ++ List.replicate t "x") =
      [⟨1, 1, [⟨LineType.add, "b", 1⟩]⟩,
       ⟨2, 3, [⟨LineType.remove, "b", 2⟩, ⟨LineType.remove, "a", 3⟩]⟩] := by
  obtain ⟨u, rfl⟩ : ∃ u, t = u + 1 := ⟨t - 1, by omega⟩
  unfold specLargeDiffLines
  rw [greedyMatch_pad]
  rw [show (List.range (u + 1)).map (fun i => ((3 : Nat) + i, (2 : Nat) + i)) =
      (3, 2) :: (List.range u).map (fun i => (4 + i, 3 + i)) from by
    rw [List.range_succ_eq_map, List.map_cons, List.map_map]
    simp only [Nat.add_zero]
    congr 1
    apply List.map_congr_left
    intro i _
    simp only [Function.comp_apply, Prod.mk.injEq]
    omega]
  rw [buildHunks_cons, if_pos (Or.inr Nat.zero_lt_one)]
  rw [show mkRemoves (["a", "b", "a"] ++ List.replicate (u + 1) "x") 0 0 = [] from rfl]
  rw [show mkAdds (["b", "a"] ++ List.replicate (u + 1) "x") 0 1 =
      [⟨LineType.add, "b", 1⟩] from rfl]
  rw [show max 0 0 + 1 = 1 from rfl, show max 0 1 + 1 = 2 from rfl]
  rw [buildHunks_cons, if_pos (Or.inl (by omega))]
  rw [show mkRemoves (["a", "b", "a"] ++ List.replicate (u + 1) "x") 1 3 =
      [⟨LineType.remove, "b", 2⟩, ⟨LineType.remove, "a", 3⟩] from rfl]
  rw [show mkAdds (["b", "a"] ++ List.replicate (u + 1) "x") 2 2 = [] from rfl]
  rw [show max 1 3 + 1 = 4 from rfl, show max 2 2 + 1 = 3 from rfl]
  rw [buildHunks_consec _ _ u 4 3
    (by simp only [List.length_append, List.length_cons, List.length_nil,
      List.length_replicate]; omega)
    (by simp only [List.length_append, List.length_cons, List.length_nil,
      List.length_replicate]; omega)]
  simp

/-- Counterexample to claim C2: no threshold `MAX_DIFF_LINES` exists for
which `generateDiff` switches to the spec's forward index-match path —
for every candidate threshold `T` there are inputs longer than `T` on
which the code's single LCS path and the described large-file path give
different hunks. -/
theorem c2_counterexample :
    ¬ ∃ T : Nat, ∀ o n : List String, (T < o.length ∨ T < n.length) →
      diffLines o n = specLargeDiffLines o n := by
  rintro ⟨T, hT⟩
  have h := hT (["a", "b", "a"] ++ List.replicate (T + 1) "x")
    (["b", "a"] ++ List.replicate (T + 1) "x")
    (Or.inl (by simp only [List.length_append, List.length_cons, List.length_nil,
      List.length_replicate]; omega))
  rw [diffLines_pad_exact, specLarge_pad (T + 1) (by omega)] at h
  exact absurd h (by decide)

theorem backtrack_length_dpT (o n : List String) :
    ∀ i j : Nat, (backtrack o n i j).length = dpT o n i j := by
  intro i
  induction i with
  | zero => intro j; rfl
  | succ i ih =>
    intro j
    induction j with
    | zero => rw [backtrack_zero_right, dpT_zero_right]; rfl
    | succ j ihj =>
      rw [backtrack_succ_succ, dpT_succ_succ]
      split
      · rw [List.length_append, ih j]
        rfl
      · split
        · rename_i hgt
          rw [ih (j + 1)]
          omega
        · rename_i hgt
          rw [ihj]
          omega

/-- The diff operation does not select between two algorithms: for every
input pair, whatever its size, `generateDiff` runs the single exact LCS
path, whose match list is an in-range, strictly increasing, equal-line
matching that attains the full DP table's LCS value `dp[m][n]`
(claim C2, amended). -/
theorem c2_single_exact_algorithm (o n : List String) :
    ValidMatches o n 0 0 (computeLCS o n) ∧
    (computeLCS o n).length = dpT o n o.length n.length :=
  ⟨computeLCS_valid o n, backtrack_length_dpT o n o.length n.length⟩
